import Mathlib

/-!
Verification of the core workflow engine: graph scheduling
(`workflow_graph.py`), the cache (`cache_manager.py`), the per-box executor
(`code_executor.py`), and the runner (`workflow_runner.py`).

Python dictionaries are modelled as association lists, Python's dynamic
values as the inductive `PyVal`, and the Python-runtime boundary of
`exec`-based code execution as an oracle (`LogicSpec`) describing what a
given code string does when loaded and invoked.
-/

/-- A Python value, as far as the engine inspects one: the engine only ever
checks `isinstance(x, dict)` and otherwise passes values through opaquely. -/
inductive PyVal where
  | vstr : String → PyVal
  | vint : Int → PyVal
  | vbool : Bool → PyVal
  | vnone : PyVal
  | vlist : List PyVal → PyVal
  | vdict : List (String × PyVal) → PyVal

/-- `isinstance(v, dict)`. -/
def PyVal.isDict : PyVal → Bool
  | .vdict _ => true
  | _ => false

/-- Python's `type(v)` rendered as text, as it appears in the executor's
"did not return a dictionary" error message. -/
def PyVal.typeName : PyVal → String
  | .vstr _ => "<class 'str'>"
  | .vint _ => "<class 'int'>"
  | .vbool _ => "<class 'bool'>"
  | .vnone => "<class 'NoneType'>"
  | .vlist _ => "<class 'list'>"
  | .vdict _ => "<class 'dict'>"

/-- Python dict read `d[k]` / `d.get(k)`: the value stored under `k`. -/
def dictGet {α : Type} : List (String × α) → String → Option α
  | [], _ => none
  | (k', v') :: rest, k => if k' = k then some v' else dictGet rest k

/-- Python dict write `d[k] = v`: replace in place, or append a new entry. -/
def dictSet {α : Type} : List (String × α) → String → α → List (String × α)
  | [], k, v => [(k, v)]
  | (k', v') :: rest, k, v =>
      if k' = k then (k, v) :: rest else (k', v') :: dictSet rest k v

/-- Python dict delete `del d[k]` (guarded by a membership check in the
source, so deleting an absent key never happens; here it is a no-op). -/
def dictDel {α : Type} : List (String × α) → String → List (String × α)
  | [], _ => []
  | (k', v') :: rest, k => if k' = k then rest else (k', v') :: dictDel rest k

/-! ## Cache (`cache_manager.py`, class `CacheManager`)

`self._cache : Dict[str, Dict[str, Any]]` maps a box id to the inner dict
`{'output': ..., 'inputs': ...}` written by `update_cache`. -/

/-- One inner dict of the cache, keyed by the strings `"output"` and
`"inputs"`. -/
abbrev CacheEntry := List (String × PyVal)

/-- The `CacheManager._cache` store. -/
abbrev Cache := List (String × CacheEntry)

/-- `CacheManager.get_cached_output`: `self._cache[box_id]['output']` when
`box_id in self._cache and 'output' in self._cache[box_id]`, else `None`. -/
def get_cached_output (c : Cache) (box_id : String) : Option PyVal :=
  match dictGet c box_id with
  | some entry => dictGet entry "output"
  | none => none

/-- `CacheManager.get_cached_inputs`: as `get_cached_output` with the
`'inputs'` key. -/
def get_cached_inputs (c : Cache) (box_id : String) : Option PyVal :=
  match dictGet c box_id with
  | some entry => dictGet entry "inputs"
  | none => none

/-- `CacheManager.update_cache`: rejects (returns with no write, only a log
line) unless both payloads are dicts, otherwise stores
`{'output': output_data, 'inputs': input_data}` under `box_id`. -/
def update_cache (c : Cache) (box_id : String) (output_data input_data : PyVal) :
    Cache :=
  if output_data.isDict && input_data.isDict then
    dictSet c box_id [("output", output_data), ("inputs", input_data)]
  else c

/-- `CacheManager.clear_cache`: with an id, delete that entry if present;
with `None` (the default), empty the whole store. -/
def clear_cache (c : Cache) (box_id : Option String) : Cache :=
  match box_id with
  | some id => dictDel c id
  | none => []

/-- `CacheManager.get_all_cache_keys`. -/
def get_all_cache_keys (c : Cache) : List String := c.map Prod.fst

/-! ## Executor (`code_executor.py`, `execute_code`)

`execute_code` runs an author-supplied Python code string through `exec`,
looks up the `execute` function it should define, and calls it with the
input dict as keyword arguments.  What the Python runtime does for a given
code string is outside the engine; it is abstracted here as an oracle:
`LogicSpec` says whether loading the string raises, fails to define a
callable `execute`, or defines a function, and in the last case
`CallOutcome` says what that function does on the given input dict. -/

/-- What the defined `execute` function does when called on the inputs. -/
inductive CallOutcome where
  | raises : String → CallOutcome
  | returns : PyVal → CallOutcome

/-- The Python-runtime behaviour of one code string: `exec` raises (e.g. a
syntax error), or the namespace ends up with no callable `execute`, or a
function is defined. -/
inductive LogicSpec where
  | execRaises : String → LogicSpec
  | noExecute : LogicSpec
  | definesExecute : (PyVal → CallOutcome) → LogicSpec

/-- The result dict of `execute_code`: keys `'success'`, `'output'`,
`'error'`.  A stored Python `None` and an absent key are both modelled as
`none`, and the runner's `result.get(key, default)` as `Option.getD`; the
two coincide on every path the runner takes with `execute_code`, which
never stores `None` in a field the runner then consults (`error` is a
string on every failure, `output` a dict on every success). -/
structure ExecOutcome where
  success : Bool
  output : Option PyVal
  error : Option String

/-- `code_executor.execute_code`, branch for branch: an exception anywhere
(from `exec` or from the call) is caught and becomes
`success: False, error: "Error during execution: ..."`; a missing or
non-callable `execute` and a non-dict return value each produce their own
error message with `success: False, output: None`; a dict return value
is passed through unmodified with `success: True, error: None`. -/
def execute_code (box_id : String) (logic : LogicSpec) (input_data : PyVal) :
    ExecOutcome :=
  match logic with
  | .execRaises msg =>
      { success := false, output := none,
        error := some ("Error during execution: " ++ msg) }
  | .noExecute =>
      { success := false, output := none,
        error := some ("Box '" ++ box_id ++
          "': Code does not define a callable function named 'execute'.") }
  | .definesExecute f =>
      match f input_data with
      | .raises msg =>
          { success := false, output := none,
            error := some ("Error during execution: " ++ msg) }
      | .returns v =>
          if v.isDict then
            { success := true, output := some v, error := none }
          else
            { success := false, output := none,
              error := some ("Box '" ++ box_id ++
                "': 'execute' function did not return a dictionary. Returned type: "
                ++ v.typeName) }

/-! ## Scheduler (`workflow_graph.py`, `get_execution_order`)

The graph is a `networkx.DiGraph`: a node set (box ids) and a directed edge
set.  `get_execution_order` first asks `nx.is_directed_acyclic_graph`; on a
cyclic graph it computes `list(nx.simple_cycles(graph))`, writes them to the
log and returns `None`; on a DAG it returns `list(nx.topological_sort(graph))`.
The three networkx calls are modelled by their documented behaviour:
`topo_sort` is a Kahn-style sort with a deterministic tie-break (any
tie-break is allowed by the library), and `simple_cycles` enumerates the
simple cycles of the graph, one rotation each. -/

/-- The node/edge structure of the `networkx.DiGraph` built by
`build_graph`. -/
structure DiGraph where
  nodes : List String
  edges : List (String × String)

/-- Both endpoints of every edge are nodes: `build_graph` only adds an edge
after checking `source in graph` and `target in graph`. -/
def WFDigraph (g : DiGraph) : Prop :=
  ∀ e ∈ g.edges, e.1 ∈ g.nodes ∧ e.2 ∈ g.nodes

/-- `v` has no incoming edge from any of the not-yet-emitted nodes `rem`. -/
def noIncoming (edges : List (String × String)) (rem : List String)
    (v : String) : Bool :=
  rem.all (fun u => decide ((u, v) ∉ edges))

/-- Kahn's algorithm on the remaining nodes: repeatedly emit a node with no
incoming edge from the remaining set.  The fuel is the node count; `none`
means some nodes could not be emitted (a cycle). -/
def topoAux (edges : List (String × String)) : Nat → List String →
    Option (List String)
  | _, [] => some []
  | 0, _ :: _ => none
  | n + 1, rem@(_ :: _) =>
      match rem.find? (fun v => noIncoming edges rem v) with
      | none => none
      | some v => (topoAux edges n (rem.erase v)).map (fun l => v :: l)

/-- `nx.topological_sort`, as a total order-producing function:
`some order` on a DAG, `none` when the graph has a cycle. -/
def topo_sort (g : DiGraph) : Option (List String) :=
  topoAux g.edges g.nodes.length g.nodes

/-- `nx.is_directed_acyclic_graph`. -/
def is_directed_acyclic_graph (g : DiGraph) : Bool :=
  (topo_sort g).isSome

/-- Consecutive elements of the list are edges of the graph. -/
def chainB (edges : List (String × String)) : List String → Bool
  | [] => true
  | [_] => true
  | a :: b :: rest => decide ((a, b) ∈ edges) && chainB edges (b :: rest)

/-- No element of the list repeats. -/
def nodupB : List String → Bool
  | [] => true
  | x :: xs => decide (x ∉ xs) && nodupB xs

/-- All ways to insert `x` into the list. -/
def insertEverywhere (x : String) : List String → List (List String)
  | [] => [[x]]
  | y :: ys => (x :: y :: ys) :: (insertEverywhere x ys).map (fun zs => y :: zs)

/-- All permutations of the list. -/
def permsOf : List String → List (List String)
  | [] => [[]]
  | x :: xs => (permsOf xs).flatMap (insertEverywhere x)

/-- All sublists (subsequences) of the list. -/
def subsetsOf : List String → List (List String)
  | [] => [[]]
  | x :: xs => (subsetsOf xs).map (fun s => x :: s) ++ subsetsOf xs

/-- The candidate list `c` is a simple cycle of `g`, written in its one
canonical rotation (the head is the node earliest in `g.nodes`): nonempty,
consecutive nodes are edges, the last node closes back to the first, and no
node repeats. -/
def isSimpleCycle (g : DiGraph) (c : List String) : Bool :=
  match c with
  | [] => false
  | v :: l =>
      chainB g.edges (v :: l) &&
      decide (((v :: l).getLast (List.cons_ne_nil v l), v) ∈ g.edges) &&
      nodupB (v :: l) &&
      (match g.nodes.find? (fun x => (v :: l).contains x) with
       | some x => x = v
       | none => false)

/-- `list(nx.simple_cycles(graph))`, modelled by enumeration: every simple
cycle of the graph, once per cycle (in its canonical rotation). -/
def simple_cycles (g : DiGraph) : List (List String) :=
  ((subsetsOf g.nodes).flatMap permsOf).filter (isSimpleCycle g)

/-- What `get_execution_order` writes to the process log: the cycle list on
a cyclic graph (line 96), the determined order on success (line 102), or
the defensive `NetworkXUnfeasible` handler (lines 104-110, unreachable). -/
inductive SchedLog where
  | cyclesFound : List (List String) → SchedLog
  | orderDetermined : List String → SchedLog
  | unexpectedError : SchedLog
deriving DecidableEq

/-- `workflow_graph.get_execution_order`.  The first component is the
Python function's return value (`Optional[List[str]]`); the second models
its logger output, which is where the computed cycles go — the caller
receives only the first component. -/
def get_execution_order (g : DiGraph) :
    Option (List String) × List SchedLog :=
  if is_directed_acyclic_graph g = false then
    (none, [SchedLog.cyclesFound (simple_cycles g)])
  else
    match topo_sort g with
    | some order => (some order, [SchedLog.orderDetermined order])
    | none => (none, [SchedLog.unexpectedError])

/-- A directed cycle in `g`: a start node `v`, a chain of edges through `l`,
and an edge from the last node back to `v` (a self-loop when `l = []`). -/
def HasCycle (g : DiGraph) : Prop :=
  ∃ v l, List.Chain (fun a b => (a, b) ∈ g.edges) v l ∧
    ((v :: l).getLast (List.cons_ne_nil v l), v) ∈ g.edges

/-- A nonempty closed walk in `g`: consecutive elements are edges and the
last element has an edge back to the first (elements may repeat). -/
def ClosedWalk (g : DiGraph) (c : List String) : Prop :=
  c ≠ [] ∧ List.Chain' (fun a b => (a, b) ∈ g.edges) c ∧
    ∀ u ∈ c.getLast?, ∀ v ∈ c.head?, (u, v) ∈ g.edges

/-! ## Runner (`workflow_runner.py`, class `WorkflowRunner`)

The runner walks the scheduler's order, gathers each box's inputs from the
cache through the node's `input_sources` map, invokes the injected executor
module, writes the cache and reports status transitions through the
`update_callback`.  The executor module is a constructor argument in the
source (`self.executor_module`), so the Lean runner takes the executor as a
function argument; the callback trace is returned as a list of events. -/

/-- One status value passed to `update_callback`. -/
inductive Status where
  | running : Status
  | success : Status
  | error : Status
deriving DecidableEq

/-- One `update_callback(box_id, status, data)` invocation. -/
structure Event where
  box : String
  status : Status
  data : Option PyVal

/-- The `data` argument of an `"error"` callback: `{"message": m}`. -/
def errData (m : String) : Option PyVal :=
  some (.vdict [("message", .vstr m)])

/-- The node attributes the runner reads from a graph node: the `code`
string (absent or empty for a box defined without a code block), the
declared `inputs` (only logged) and the `input_sources` map built from the
connections. -/
structure NodeData where
  code : Option String
  inputs : List String
  input_sources : List (String × String)

/-- The graph object the runner receives: node ids with their attribute
dicts, plus the dependency edges. -/
structure WGraph where
  nodes : List (String × NodeData)
  edges : List (String × String)

/-- The node/edge view of a `WGraph`, as the scheduler sees it. -/
def toDiGraph (g : WGraph) : DiGraph :=
  ⟨g.nodes.map Prod.fst, g.edges⟩

/-- `workflow_graph.get_node_data`: the attribute dict of a node, `None`
when the node is absent. -/
def get_node_data (g : WGraph) (box_id : String) : Option NodeData :=
  dictGet g.nodes box_id

/-- An executor module as injected into `WorkflowRunner.__init__`: a
function of `(box_id, code_string, input_data)`. -/
abbrev ExecModule := String → String → PyVal → ExecOutcome

/-- The input-gathering loop of `run_workflow` (lines 87-102): for each
`(target_input_name, source_box_id)` pair in order, read the source box's
cached output; fail with the first missing `(source, target_input)` pair,
else bind each target input name to the entire cached output dict. -/
def gatherInputs (cache : Cache) :
    List (String × String) → Except (String × String) (List (String × PyVal))
  | [] => .ok []
  | (tin, src) :: rest =>
      match get_cached_output cache src with
      | none => .error (src, tin)
      | some out =>
          match gatherInputs cache rest with
          | .error e => .error e
          | .ok d => .ok ((tin, out) :: d)

/-- The per-box loop of `WorkflowRunner.run_workflow` (lines 59-134) over
the remaining execution order.  Returns the overall flag, the final cache,
and the callback trace.  Each box first gets a `"running"` callback; a
missing node, a missing/empty code string, a missing upstream output or a
failed execution each emit an `"error"` callback and stop the loop with
overall failure; a successful execution writes the cache, emits
`"success"` with the output dict and continues. -/
def runBoxes (execFn : ExecModule) (g : WGraph) :
    List String → Cache → Bool × Cache × List Event
  | [], cache => (true, cache, [])
  | box_id :: rest, cache =>
      let runEv : Event := ⟨box_id, .running, none⟩
      match get_node_data g box_id with
      | none =>
          (false, cache,
           [runEv, ⟨box_id, .error, errData ("Node data not found for " ++ box_id)⟩])
      | some nd =>
          let code_string := nd.code.getD ""
          if code_string = "" then
            (false, cache,
             [runEv, ⟨box_id, .error, errData ("Code not found for " ++ box_id)⟩])
          else
            match gatherInputs cache nd.input_sources with
            | .error (src, tin) =>
                (false, cache,
                 [runEv, ⟨box_id, .error,
                   errData ("Missing cached output from upstream box '" ++ src ++
                     "' for input '" ++ tin ++ "'.")⟩])
            | .ok input_data =>
                let r := execFn box_id code_string (.vdict input_data)
                if r.success then
                  let output_data := r.output.getD (.vdict [])
                  let cache' := update_cache cache box_id output_data (.vdict input_data)
                  let rec_result := runBoxes execFn g rest cache'
                  (rec_result.1, rec_result.2.1,
                   runEv :: ⟨box_id, .success, some output_data⟩ :: rec_result.2.2)
                else
                  (false, cache,
                   [runEv, ⟨box_id, .error,
                     errData (r.error.getD "Unknown execution error")⟩])

/-- `WorkflowRunner.run_workflow`: clear the whole cache, compute the
execution order (abort with `False` and no callbacks if it is `None`), then
run the boxes in order. -/
def run_workflow (execFn : ExecModule) (g : WGraph) (cache : Cache) :
    Bool × Cache × List Event :=
  let cache0 := clear_cache cache none
  match (get_execution_order (toDiGraph g)).1 with
  | none => (false, cache0, [])
  | some order => runBoxes execFn g order cache0

/-- `WorkflowRunner.run_single_box`: emit `"running"`, look up the node and
its code, then require previously cached inputs for this box; if none,
emit the `"error"` callback with the "No cached inputs available" message
and return failure without touching the executor; otherwise execute with the
cached inputs, re-cache on success and emit `"success"`/`"error"` as in the
full run. -/
def run_single_box (execFn : ExecModule) (g : WGraph) (cache : Cache)
    (box_id : String) : Bool × Cache × List Event :=
  let runEv : Event := ⟨box_id, .running, none⟩
  match get_node_data g box_id with
  | none =>
      (false, cache,
       [runEv, ⟨box_id, .error, errData ("Node data not found for " ++ box_id)⟩])
  | some nd =>
      let code_string := nd.code.getD ""
      if code_string = "" then
        (false, cache,
         [runEv, ⟨box_id, .error, errData ("Code not found for " ++ box_id)⟩])
      else
        match get_cached_inputs cache box_id with
        | none =>
            (false, cache,
             [runEv, ⟨box_id, .error,
               errData "No cached inputs available for single run."⟩])
        | some input_data =>
            let r := execFn box_id code_string input_data
            if r.success then
              let output_data := r.output.getD (.vdict [])
              (true, update_cache cache box_id output_data input_data,
               [runEv, ⟨box_id, .success, some output_data⟩])
            else
              (false, cache,
               [runEv, ⟨box_id, .error,
                 errData (r.error.getD "Unknown execution error")⟩])

/-! ## Cache operation sequences

The three mutating entry points of `CacheManager`, for stating invariants
over arbitrary call sequences. -/

/-- One mutating call on the cache: `update_cache(id, out, inp)`,
`clear_cache(id)`, or `clear_cache()`. -/
inductive CacheOp where
  | update : String → PyVal → PyVal → CacheOp
  | clearOne : String → CacheOp
  | clearAll : CacheOp

/-- Apply one mutating call. -/
def applyOp (c : Cache) : CacheOp → Cache
  | .update id out inp => update_cache c id out inp
  | .clearOne id => clear_cache c (some id)
  | .clearAll => clear_cache c none

/-- The cache after a sequence of mutating calls on a fresh
`CacheManager` (whose `__init__` sets `self._cache = {}`). -/
def applyOps (ops : List CacheOp) : Cache :=
  ops.foldl applyOp []

/-- Every entry stored in the cache carries both an `'output'` and an
`'inputs'` key. -/
def CachePaired (c : Cache) : Prop :=
  ∀ p ∈ c, (dictGet p.2 "output").isSome = true ∧
    (dictGet p.2 "inputs").isSome = true

/-! ## Concrete instances used by witnesses and counterexamples -/

/-- The two-node cycle of spec Scenario B: boxes `A`, `B`, connections
`A→B`, `B→A`. -/
def cycAB : DiGraph := ⟨["A", "B"], [("A", "B"), ("B", "A")]⟩

/-- A two-node chain `A→B` as a plain digraph. -/
def chainAB : DiGraph := ⟨["A", "B"], [("A", "B")]⟩

/-- The three-box chain `X→Y→Z` of spec Scenario C, with the code strings
and target-input names as parameters. -/
def chainXYZ (cx cy cz tinY tinZ : String) : WGraph :=
  ⟨[("X", ⟨some cx, [], []⟩),
    ("Y", ⟨some cy, [tinY], [(tinY, "X")]⟩),
    ("Z", ⟨some cz, [tinZ], [(tinZ, "Y")]⟩)],
   [("X", "Y"), ("Y", "Z")]⟩

/-- An executor for the Scenario C witness: box `X` succeeds with output
`{"a": 1}`, any other box fails. -/
def execXfailY : ExecModule := fun box_id _ _ =>
  if box_id = "X" then ⟨true, some (.vdict [("a", .vint 1)]), none⟩
  else ⟨false, none, some "boom"⟩

/-- An executor that always succeeds with an empty output dict. -/
def execAlwaysOk : ExecModule := fun _ _ _ => ⟨true, some (.vdict []), none⟩

/-- A one-box graph whose box `Q` was defined without a code block: the
parser then yields `code = ''` for it. -/
def graphQ : WGraph := ⟨[("Q", ⟨some "", [], []⟩)], []⟩

/-- A one-box graph whose box `R` has a (non-empty) code string and no
connections. -/
def graphR : WGraph := ⟨[("R", ⟨some "def execute(): return {}", [], []⟩)], []⟩

/-- A two-box chain where `B` needs `A`'s output as its `in_b` input. -/
def wgNeedsA : WGraph :=
  ⟨[("A", ⟨some "def execute(): return {}", [], []⟩),
    ("B", ⟨some "def execute(in_b): return {}", ["in_b"], [("in_b", "A")]⟩)],
   [("A", "B")]⟩

/-- The two-box cyclic workflow graph matching `cycAB`, with node data. -/
def wgCyc : WGraph :=
  ⟨[("A", ⟨some "def execute(b): return {}", ["b"], [("b", "B")]⟩),
    ("B", ⟨some "def execute(a): return {}", ["a"], [("a", "A")]⟩)],
   [("A", "B"), ("B", "A")]⟩

/-! ## Association-list dictionary lemmas -/

theorem dictGet_dictSet_self {α : Type} (l : List (String × α)) (k : String)
    (v : α) : dictGet (dictSet l k v) k = some v := by
  induction l with
  | nil => simp [dictGet, dictSet]
  | cons p rest ih =>
      by_cases h : p.1 = k
      · simp [dictGet, dictSet, h]
      · simp [dictGet, dictSet, h, ih]

theorem dictGet_dictSet_ne {α : Type} (l : List (String × α)) (k j : String)
    (v : α) (hjk : j ≠ k) : dictGet (dictSet l k v) j = dictGet l j := by
  have hkj : ¬k = j := fun hh => hjk hh.symm
  induction l with
  | nil => simp [dictGet, dictSet, hkj]
  | cons p rest ih =>
      by_cases h : p.1 = k
      · simp [dictGet, dictSet, h, hkj]
      · simp only [dictSet, if_neg h]
        by_cases hj : p.1 = j
        · simp [dictGet, hj]
        · simp [dictGet, hj, ih]

theorem mem_dictSet {α : Type} (l : List (String × α)) (k : String) (v : α)
    (p : String × α) (hp : p ∈ dictSet l k v) : p = (k, v) ∨ p ∈ l := by
  induction l with
  | nil => simpa [dictSet] using hp
  | cons q rest ih =>
      by_cases h : q.1 = k
      · simp only [dictSet, if_pos h, List.mem_cons] at hp
        rcases hp with hp | hp
        · exact Or.inl hp
        · exact Or.inr (List.mem_cons_of_mem _ hp)
      · simp only [dictSet, if_neg h, List.mem_cons] at hp
        rcases hp with hp | hp
        · exact Or.inr (by simp [hp])
        · rcases ih hp with hp' | hp'
          · exact Or.inl hp'
          · exact Or.inr (List.mem_cons_of_mem _ hp')

theorem mem_dictDel {α : Type} (l : List (String × α)) (k : String)
    (p : String × α) (hp : p ∈ dictDel l k) : p ∈ l := by
  induction l with
  | nil => simp [dictDel] at hp
  | cons q rest ih =>
      by_cases h : q.1 = k
      · simp only [dictDel, if_pos h] at hp
        exact List.mem_cons_of_mem _ hp
      · simp only [dictDel, if_neg h, List.mem_cons] at hp
        rcases hp with hp | hp
        · simp [hp]
        · exact List.mem_cons_of_mem _ (ih hp)

theorem dictGet_mem {α : Type} (l : List (String × α)) (k : String) (v : α)
    (h : dictGet l k = some v) : (k, v) ∈ l := by
  induction l with
  | nil => simp [dictGet] at h
  | cons q rest ih =>
      obtain ⟨k', v'⟩ := q
      by_cases hq : k' = k
      · simp only [dictGet, if_pos hq, Option.some.injEq] at h
        subst hq
        subst h
        exact List.mem_cons_self _ _
      · simp only [dictGet, if_neg hq] at h
        exact List.mem_cons_of_mem _ (ih h)

/-! ## Cache lemmas and claims C7, C8, C10 -/

theorem cachePaired_applyOp (c : Cache) (op : CacheOp) (hc : CachePaired c) :
    CachePaired (applyOp c op) := by
  cases op with
  | update id out inp =>
      simp only [applyOp, update_cache]
      by_cases h : out.isDict && inp.isDict
      · rw [if_pos h]
        intro p hp
        rcases mem_dictSet _ _ _ _ hp with hp' | hp'
        · subst hp'
          constructor <;> simp [dictGet]
        · exact hc p hp'
      · rw [if_neg h]
        exact hc
  | clearOne id =>
      intro p hp
      exact hc p (mem_dictDel _ _ _ hp)
  | clearAll =>
      intro p hp
      simp [applyOp, clear_cache] at hp

theorem cachePaired_applyOps (ops : List CacheOp) : CachePaired (applyOps ops) := by
  have main : ∀ c : Cache, CachePaired c → CachePaired (ops.foldl applyOp c) := by
    induction ops with
    | nil => intro c hc; exact hc
    | cons op rest ih =>
        intro c hc
        exact ih (applyOp c op) (cachePaired_applyOp c op hc)
  exact main [] (by intro p hp; simp at hp)

/-- Claim C10: starting from the empty cache, after any sequence of
`update_cache`, `clear_cache(id)` and `clear_cache()` calls, an id has a
cached output exactly when it has cached inputs — no id is ever cached with
one but not the other. -/
theorem C10_cache_pairing_invariant (ops : List CacheOp) (id : String) :
    (get_cached_output (applyOps ops) id).isSome = true ↔
      (get_cached_inputs (applyOps ops) id).isSome = true := by
  have hP := cachePaired_applyOps ops
  cases heq : dictGet (applyOps ops) id with
  | none => simp [get_cached_output, get_cached_inputs, heq]
  | some e =>
      have := hP (id, e) (dictGet_mem _ _ _ heq)
      simp [get_cached_output, get_cached_inputs, heq, this.1, this.2]

/-- Claim C7: immediately after `update_cache(id, out, inp)` with dict
payloads, `get_cached_output(id)` is exactly `out` and
`get_cached_inputs(id)` is exactly `inp`. -/
theorem C7_cache_round_trip (c : Cache) (id : String) (out inp : PyVal)
    (ho : out.isDict = true) (hi : inp.isDict = true) :
    get_cached_output (update_cache c id out inp) id = some out ∧
    get_cached_inputs (update_cache c id out inp) id = some inp := by
  unfold update_cache
  rw [ho, hi]
  simp only [Bool.and_self, if_true]
  constructor
  · simp [get_cached_output, dictGet_dictSet_self, dictGet]
  · simp [get_cached_inputs, dictGet_dictSet_self, dictGet]

/-- Witness for C7 at the source's own example values: id `box_a`,
output `{'result_a': 100}`, inputs `{'param1': 10}`. -/
theorem C7_witness :
    get_cached_output
        (update_cache [] "box_a" (.vdict [("result_a", .vint 100)])
          (.vdict [("param1", .vint 10)])) "box_a" =
      some (.vdict [("result_a", .vint 100)]) ∧
    get_cached_inputs
        (update_cache [] "box_a" (.vdict [("result_a", .vint 100)])
          (.vdict [("param1", .vint 10)])) "box_a" =
      some (.vdict [("param1", .vint 10)]) :=
  C7_cache_round_trip [] "box_a" _ _ rfl rfl

/-- Claim C8: `update_cache` with a non-dict output or inputs payload
leaves the whole cache state unchanged (so no entry is created or
overwritten for any id); being a total function, it returns normally, and
the source returns `None` to the caller after only logging a warning. -/
theorem C8_cache_reject_non_mapping (c : Cache) (id : String) (out inp : PyVal)
    (h : out.isDict = false ∨ inp.isDict = false) :
    update_cache c id out inp = c := by
  unfold update_cache
  rcases h with h | h <;> simp [h]

/-- Witness for C8 at the source's own example: `update_cache('box_c',
["list"], {"input": 1})` on a cache holding `box_b` changes nothing. -/
theorem C8_witness :
    update_cache [("box_b", [("output", .vdict []), ("inputs", .vdict [])])]
        "box_c" (.vlist [.vstr "list"]) (.vdict [("input", .vint 1)]) =
      [("box_b", [("output", .vdict []), ("inputs", .vdict [])])] :=
  C8_cache_reject_non_mapping _ "box_c" _ _ (Or.inl rfl)

/-! ## Executor claim C4 -/

/-- Claim C4: `execute_code` never lets a failure escape — every failure
mode of the logic (the code string raising on load, no callable `execute`
defined, the call raising) yields `success: false` with an error message
present; a run that completes with a non-dict value yields
`success: false` with an error naming the returned type; and a dict return
value is passed through as the output, unmodified, with no error.  The
Python-runtime behaviour of the code string is the `LogicSpec` oracle; the
function being total in Lean reflects that the `try/except` in the source
catches every exception. -/
theorem C4_executor_isolation (box_id : String) (logic : LogicSpec)
    (input_data : PyVal) :
    ((execute_code box_id logic input_data).success = false →
      (execute_code box_id logic input_data).error.isSome = true) ∧
    (∀ msg, logic = .execRaises msg →
      (execute_code box_id logic input_data).success = false) ∧
    (logic = .noExecute →
      (execute_code box_id logic input_data).success = false) ∧
    (∀ f msg, logic = .definesExecute f → f input_data = .raises msg →
      (execute_code box_id logic input_data).success = false) ∧
    (∀ f v, logic = .definesExecute f → f input_data = .returns v →
      v.isDict = false →
      (execute_code box_id logic input_data).success = false ∧
      (execute_code box_id logic input_data).error =
        some ("Box '" ++ box_id ++
          "': 'execute' function did not return a dictionary. Returned type: "
          ++ v.typeName)) ∧
    (∀ f v, logic = .definesExecute f → f input_data = .returns v →
      v.isDict = true →
      execute_code box_id logic input_data =
        { success := true, output := some v, error := none }) := by
  refine ⟨?_, ?_, ?_, ?_, ?_, ?_⟩
  · cases logic with
    | execRaises m => simp [execute_code]
    | noExecute => simp [execute_code]
    | definesExecute f =>
        cases hf : f input_data with
        | raises m => simp [execute_code, hf]
        | returns v =>
            by_cases hv : v.isDict <;> simp [execute_code, hf, hv]
  · rintro msg rfl; simp [execute_code]
  · rintro rfl; simp [execute_code]
  · rintro f msg rfl hf; simp [execute_code, hf]
  · rintro f v rfl hf hv
    constructor <;> simp [execute_code, hf, hv]
  · rintro f v rfl hf hv
    simp [execute_code, hf, hv]

/-- Witness for C4: a logic unit returning the non-dict `["list"]` under
box id `W` fails with the error naming the list type. -/
theorem C4_witness :
    (execute_code "W" (.definesExecute fun _ => .returns (.vlist []))
        (.vdict [])).success = false ∧
    (execute_code "W" (.definesExecute fun _ => .returns (.vlist []))
        (.vdict [])).error =
      some "Box 'W': 'execute' function did not return a dictionary. Returned type: <class 'list'>" := by
  have h := (C4_executor_isolation "W"
      (.definesExecute fun _ => .returns (.vlist [])) (.vdict [])).2.2.2.2.1
      (fun _ => .returns (.vlist [])) (.vlist []) rfl rfl rfl
  exact ⟨h.1, by rw [h.2]; rfl⟩

/-! ## Scheduler lemmas -/

theorem noIncoming_spec (edges : List (String × String)) (rem : List String)
    (v : String) (h : noIncoming edges rem v = true) :
    ∀ u ∈ rem, (u, v) ∉ edges := by
  intro u hu
  have := List.all_eq_true.mp h u hu
  simpa using this

theorem topoAux_perm (edges : List (String × String)) :
    ∀ (n : Nat) (rem l : List String), topoAux edges n rem = some l →
      l.Perm rem := by
  intro n
  induction n with
  | zero =>
      intro rem l h
      cases rem with
      | nil =>
          simp only [topoAux, Option.some.injEq] at h
          subst h
          exact List.Perm.refl _
      | cons a as => simp [topoAux] at h
  | succ n ih =>
      intro rem l h
      cases rem with
      | nil =>
          simp only [topoAux, Option.some.injEq] at h
          subst h
          exact List.Perm.refl _
      | cons a as =>
          cases hf : (a :: as).find? (fun x => noIncoming edges (a :: as) x) with
          | none => simp [topoAux, hf] at h
          | some w =>
              simp only [topoAux, hf] at h
              obtain ⟨l', hrec, rfl⟩ := Option.map_eq_some'.mp h
              have hw : w ∈ a :: as := List.mem_of_find?_eq_some hf
              exact ((ih _ _ hrec).cons w).trans (List.perm_cons_erase hw).symm

theorem topoAux_sound (edges : List (String × String)) :
    ∀ (n : Nat) (rem l : List String), topoAux edges n rem = some l →
      ∀ u v : String, (u, v) ∈ edges → u ∈ rem → v ∈ rem →
        l.indexOf u < l.indexOf v := by
  intro n
  induction n with
  | zero =>
      intro rem l h u v he hu hv
      cases rem with
      | nil => simp at hu
      | cons a as => simp [topoAux] at h
  | succ n ih =>
      intro rem l h u v he hu hv
      cases rem with
      | nil => simp at hu
      | cons a as =>
          cases hf : (a :: as).find? (fun x => noIncoming edges (a :: as) x) with
          | none => simp [topoAux, hf] at h
          | some w =>
              simp only [topoAux, hf] at h
              obtain ⟨l', hrec, rfl⟩ := Option.map_eq_some'.mp h
              have hw_no : noIncoming edges (a :: as) w = true := by
                simpa using List.find?_some hf
              have hvw : v ≠ w := by
                rintro rfl
                exact noIncoming_spec _ _ _ hw_no u hu he
              have hv' : v ∈ (a :: as).erase w := (List.mem_erase_of_ne hvw).mpr hv
              by_cases huw : u = w
              · subst huw
                rw [List.indexOf_cons_self, List.indexOf_cons_ne _ (Ne.symm hvw)]
                exact Nat.succ_pos _
              · have hu' : u ∈ (a :: as).erase w := (List.mem_erase_of_ne huw).mpr hu
                rw [List.indexOf_cons_ne _ (Ne.symm huw),
                  List.indexOf_cons_ne _ (Ne.symm hvw)]
                exact Nat.succ_lt_succ (ih _ _ hrec u v he hu' hv')

theorem topo_sort_perm (g : DiGraph) (l : List String)
    (h : topo_sort g = some l) : l.Perm g.nodes :=
  topoAux_perm _ _ _ _ h

theorem topo_sort_sound (g : DiGraph) (hWF : WFDigraph g) (l : List String)
    (h : topo_sort g = some l) :
    ∀ u v : String, (u, v) ∈ g.edges → l.indexOf u < l.indexOf v := by
  intro u v he
  exact topoAux_sound _ _ _ _ h u v he (hWF _ he).1 (hWF _ he).2

theorem chain_indexOf_le (edges : List (String × String)) (ord : List String)
    (hord : ∀ u v : String, (u, v) ∈ edges → ord.indexOf u < ord.indexOf v) :
    ∀ (l : List String) (v : String),
      List.Chain (fun a b => (a, b) ∈ edges) v l →
      ord.indexOf v ≤ ord.indexOf ((v :: l).getLast (List.cons_ne_nil v l)) := by
  intro l
  induction l with
  | nil => intro v _; simp [List.getLast]
  | cons b l' ih =>
      intro v hch
      cases hch with
      | cons hvb hbl =>
          have h1 : ord.indexOf v < ord.indexOf b := hord _ _ hvb
          have h2 := ih b hbl
          rw [List.getLast_cons (List.cons_ne_nil b l')]
          omega

theorem hasCycle_topo_sort_none (g : DiGraph) (hWF : WFDigraph g)
    (hc : HasCycle g) : topo_sort g = none := by
  cases htp : topo_sort g with
  | none => rfl
  | some ord =>
      exfalso
      obtain ⟨v, l, hch, hlast⟩ := hc
      have hord := topo_sort_sound g hWF ord htp
      have h1 := chain_indexOf_le g.edges ord hord l v hch
      have h2 := hord _ _ hlast
      omega

theorem get_execution_order_fst_some (g : DiGraph) (ord : List String)
    (h : (get_execution_order g).1 = some ord) : topo_sort g = some ord := by
  unfold get_execution_order at h
  by_cases hd : is_directed_acyclic_graph g = false
  · rw [if_pos hd] at h
    simp at h
  · rw [if_neg hd] at h
    cases hts : topo_sort g with
    | none =>
        rw [hts] at h
        simp at h
    | some o =>
        rw [hts] at h
        exact h

theorem chainB_iff (edges : List (String × String)) :
    ∀ l : List String,
      chainB edges l = true ↔ List.Chain' (fun a b => (a, b) ∈ edges) l
  | [] => by simp [chainB]
  | [a] => by simp [chainB]
  | a :: b :: rest => by
      simp [chainB, List.chain'_cons, chainB_iff edges (b :: rest),
        and_comm]

theorem nodupB_iff : ∀ l : List String, nodupB l = true ↔ l.Nodup
  | [] => by simp [nodupB]
  | x :: xs => by simp [nodupB, nodupB_iff xs, List.nodup_cons]

theorem isSimpleCycle_spec (g : DiGraph) (c : List String)
    (h : isSimpleCycle g c = true) :
    c ≠ [] ∧ c.Nodup ∧ List.Chain' (fun a b => (a, b) ∈ g.edges) c ∧
      ∀ hne : c ≠ [], (c.getLast hne, c.head hne) ∈ g.edges := by
  cases c with
  | nil => simp [isSimpleCycle] at h
  | cons v l =>
      simp only [isSimpleCycle, Bool.and_eq_true] at h
      obtain ⟨⟨⟨hch, hlast⟩, hnd⟩, _⟩ := h
      refine ⟨List.cons_ne_nil v l, (nodupB_iff _).mp hnd,
        (chainB_iff _ _).mp hch, ?_⟩
      intro hne
      simpa using of_decide_eq_true hlast

/-! ## A cyclic graph has a simple cycle, and the enumeration finds it -/

theorem hasCycle_closedWalk (g : DiGraph) (hc : HasCycle g) :
    ∃ c, ClosedWalk g c := by
  obtain ⟨v, l, hch, hlast⟩ := hc
  refine ⟨v :: l, List.cons_ne_nil v l, hch, ?_⟩
  intro u hu w hw
  rw [List.getLast?_eq_getLast (v :: l) (List.cons_ne_nil v l)] at hu
  simp only [Option.mem_def, Option.some.injEq] at hu
  simp only [List.head?_cons, Option.mem_def, Option.some.injEq] at hw
  subst hu
  subst hw
  exact hlast

theorem closedWalk_shorten (g : DiGraph) :
    ∀ (n : Nat) (c : List String), c.length ≤ n → ClosedWalk g c →
      ∃ c', ClosedWalk g c' ∧ c'.Nodup ∧ ∀ y ∈ c', y ∈ c := by
  intro n
  induction n with
  | zero =>
      intro c hlen hcw
      obtain ⟨hne, -, -⟩ := hcw
      cases c with
      | nil => exact absurd rfl hne
      | cons a l => simp at hlen
  | succ n ih =>
      intro c hlen hcw
      by_cases hnd : c.Nodup
      · exact ⟨c, hcw, hnd, fun _ h => h⟩
      · obtain ⟨x, hdup⟩ := List.exists_duplicate_iff_not_nodup.mpr hnd
        have hsub : List.Sublist [x, x] c := List.duplicate_iff_sublist.mp hdup
        rw [List.cons_sublist_iff] at hsub
        obtain ⟨r₁, r₂, rfl, hx1, hx2⟩ := hsub
        have hx2' : x ∈ r₂ := hx2.subset (List.mem_singleton_self x)
        obtain ⟨s, t, rfl⟩ := List.append_of_mem hx1
        obtain ⟨u, w, rfl⟩ := List.append_of_mem hx2'
        have hch := hcw.2.1
        have hre : (s ++ x :: t) ++ (u ++ x :: w) =
            s ++ ((x :: (t ++ u)) ++ (x :: w)) := by simp
        rw [hre] at hch
        have hch2 := hch.right_of_append
        have hchain : List.Chain' (fun a b => (a, b) ∈ g.edges) (x :: (t ++ u)) :=
          hch2.left_of_append
        have hbound := (List.chain'_append.mp hch2).2.2
        have hwrap : ∀ u' ∈ (x :: (t ++ u)).getLast?,
            ∀ v ∈ (x :: (t ++ u)).head?, (u', v) ∈ g.edges := by
          intro a ha b hb
          simp only [List.head?_cons, Option.mem_def, Option.some.injEq] at hb
          subst hb
          exact hbound a ha x rfl
        have hcw' : ClosedWalk g (x :: (t ++ u)) :=
          ⟨List.cons_ne_nil _ _, hchain, hwrap⟩
        have hlen' : (x :: (t ++ u)).length ≤ n := by
          simp only [List.length_append, List.length_cons] at hlen ⊢
          omega
        obtain ⟨c', hc', hnd', hsub'⟩ := ih _ hlen' hcw'
        refine ⟨c', hc', hnd', fun y hy => ?_⟩
        have hmem := hsub' y hy
        simp only [List.mem_cons, List.mem_append] at hmem ⊢
        tauto

theorem closedWalk_subset_nodes (g : DiGraph) (hWF : WFDigraph g)
    (c : List String) (hcw : ClosedWalk g c) : ∀ x ∈ c, x ∈ g.nodes := by
  obtain ⟨hne, hch, hwrap⟩ := hcw
  intro x hx
  obtain ⟨p, q, rfl⟩ := List.append_of_mem hx
  cases q with
  | nil =>
      have hl : (p ++ [x]).getLast? = some x := List.getLast?_concat p
      cases hh : (p ++ [x]).head? with
      | none =>
          rw [List.head?_eq_none_iff] at hh
          simp at hh
      | some h₀ =>
          exact (hWF _ (hwrap x (by rw [hl]; rfl) h₀ (by rw [hh]; rfl))).1
  | cons q₀ q' =>
      have hxq : List.Chain' (fun a b => (a, b) ∈ g.edges) (x :: q₀ :: q') :=
        (List.chain'_split.mp hch).2
      exact (hWF _ hxq.rel_head).1

theorem closedWalk_rotate (g : DiGraph) (p q : List String) (x : String)
    (hcw : ClosedWalk g (p ++ x :: q)) : ClosedWalk g (x :: (q ++ p)) := by
  obtain ⟨hne, hch, hwrap⟩ := hcw
  cases p with
  | nil =>
      rw [List.append_nil]
      rw [List.nil_append] at hch hwrap
      exact ⟨List.cons_ne_nil _ _, hch, hwrap⟩
  | cons p₀ p' =>
      have hsplit := List.chain'_split.mp hch
      have hxq := hsplit.2
      have hpx := hsplit.1
      have hp : List.Chain' (fun a b => (a, b) ∈ g.edges) (p₀ :: p') :=
        hpx.left_of_append
      have hlastp : ∀ u ∈ (p₀ :: p').getLast?, (u, x) ∈ g.edges := by
        intro u hu
        exact (List.chain'_append.mp hpx).2.2 u hu x rfl
      have hb : ∀ u ∈ (x :: q).getLast?, ∀ v ∈ (p₀ :: p').head?,
          (u, v) ∈ g.edges := by
        intro u hu v hv
        apply hwrap
        · rw [List.getLast?_append]
          rw [List.getLast?_eq_getLast (x :: q) (List.cons_ne_nil _ _)] at hu ⊢
          simpa using hu
        · simpa using hv
      refine ⟨List.cons_ne_nil _ _, ?_, ?_⟩
      · show List.Chain' (fun a b => (a, b) ∈ g.edges) ((x :: q) ++ (p₀ :: p'))
        exact List.Chain'.append hxq hp hb
      · intro u hu v hv
        simp only [List.head?_cons, Option.mem_def, Option.some.injEq] at hv
        subst hv
        have hlasteq : (x :: (q ++ p₀ :: p')).getLast? = (p₀ :: p').getLast? := by
          show ((x :: q) ++ (p₀ :: p')).getLast? = (p₀ :: p').getLast?
          rw [List.getLast?_append]
          rw [List.getLast?_eq_getLast (p₀ :: p') (List.cons_ne_nil _ _)]
          rfl
        rw [hlasteq] at hu
        exact hlastp u hu

theorem find?_pointwise_congr {α : Type} (l : List α) (p q : α → Bool)
    (h : ∀ a, p a = q a) : l.find? p = l.find? q := by
  induction l with
  | nil => rfl
  | cons a l ih => rw [List.find?_cons, List.find?_cons, h a, ih]

theorem self_mem_insertEverywhere (x : String) (l : List String) :
    (x :: l) ∈ insertEverywhere x l := by
  cases l <;> simp [insertEverywhere]

theorem mem_insertEverywhere_erase :
    ∀ (c : List String) (x : String), x ∈ c →
      c ∈ insertEverywhere x (c.erase x) := by
  intro c
  induction c with
  | nil =>
      intro x hx
      simp at hx
  | cons y c' ih =>
      intro x hx
      by_cases hxy : y = x
      · subst hxy
        rw [List.erase_cons_head]
        exact self_mem_insertEverywhere y c'
      · have hx' : x ∈ c' := by
          rcases List.mem_cons.mp hx with h | h
          · exact absurd h.symm hxy
          · exact h
        have herase : (y :: c').erase x = y :: c'.erase x := by
          rw [List.erase_cons]
          simp [hxy]
        rw [herase]
        simp only [insertEverywhere, List.mem_cons]
        exact Or.inr (List.mem_map.mpr ⟨c', ih x hx', rfl⟩)

theorem mem_permsOf_of_perm :
    ∀ (s c : List String), c.Perm s → c ∈ permsOf s := by
  intro s
  induction s with
  | nil =>
      intro c hc
      rw [List.perm_nil] at hc
      simp [permsOf, hc]
  | cons x xs ih =>
      intro c hc
      have hx : x ∈ c := hc.mem_iff.mpr (List.mem_cons_self x xs)
      have herase : (c.erase x).Perm xs := by
        have := hc.erase x
        rwa [List.erase_cons_head] at this
      simp only [permsOf, List.mem_flatMap]
      exact ⟨c.erase x, ih _ herase, mem_insertEverywhere_erase c x hx⟩

theorem mem_subsetsOf_of_sublist :
    ∀ (l s : List String), List.Sublist s l → s ∈ subsetsOf l := by
  intro l
  induction l with
  | nil =>
      intro s hs
      rw [List.sublist_nil] at hs
      simp [subsetsOf, hs]
  | cons x xs ih =>
      intro s hs
      rw [List.sublist_cons_iff] at hs
      rcases hs with hs | ⟨r, rfl, hr⟩
      · exact List.mem_append.mpr (Or.inr (ih s hs))
      · exact List.mem_append.mpr (Or.inl (List.mem_map.mpr ⟨r, ih r hr, rfl⟩))

theorem simple_cycles_ne_nil (g : DiGraph) (hWF : WFDigraph g)
    (hc : HasCycle g) : simple_cycles g ≠ [] := by
  obtain ⟨c₀, hcw₀⟩ := hasCycle_closedWalk g hc
  obtain ⟨c₁, hcw₁, hnd₁, hsub₁⟩ :=
    closedWalk_shorten g c₀.length c₀ le_rfl hcw₀
  have hnodes₁ : ∀ y ∈ c₁, y ∈ g.nodes := closedWalk_subset_nodes g hWF c₁ hcw₁
  have hne₁ : c₁ ≠ [] := hcw₁.1
  obtain ⟨z, hz⟩ := List.exists_mem_of_ne_nil c₁ hne₁
  have hfs : (g.nodes.find? (fun y => c₁.contains y)).isSome := by
    rw [List.find?_isSome]
    exact ⟨z, hnodes₁ z hz, by simp [List.contains, List.elem_eq_mem, hz]⟩
  obtain ⟨x, hfind⟩ := Option.isSome_iff_exists.mp hfs
  have hxc : x ∈ c₁ := by
    have := List.find?_some hfind
    simpa [List.contains, List.elem_eq_mem] using this
  obtain ⟨p, q, rfl⟩ := List.append_of_mem hxc
  have hcwstar : ClosedWalk g (x :: (q ++ p)) := closedWalk_rotate g p q x hcw₁
  have hperm : (x :: (q ++ p)).Perm (p ++ x :: q) :=
    (List.Perm.cons x List.perm_append_comm).trans List.perm_middle.symm
  have hndstar : (x :: (q ++ p)).Nodup := hperm.nodup_iff.mpr hnd₁
  have hnodesstar : ∀ y ∈ x :: (q ++ p), y ∈ g.nodes :=
    fun y hy => hnodes₁ y (hperm.subset hy)
  have hfindstar :
      g.nodes.find? (fun y => (x :: (q ++ p)).contains y) = some x := by
    rw [find?_pointwise_congr g.nodes _ (fun y => (p ++ x :: q).contains y)
      (fun a => by
        simp only [List.contains, List.elem_eq_mem]
        exact decide_eq_decide.mpr hperm.mem_iff)]
    exact hfind
  have hgetlast := List.getLast?_eq_getLast (x :: (q ++ p)) (List.cons_ne_nil _ _)
  have hwrapedge :
      ((x :: (q ++ p)).getLast (List.cons_ne_nil _ _), x) ∈ g.edges :=
    hcwstar.2.2 _ (by rw [hgetlast]; rfl) x rfl
  have hsc : isSimpleCycle g (x :: (q ++ p)) = true := by
    simp only [isSimpleCycle, Bool.and_eq_true]
    refine ⟨⟨⟨?_, ?_⟩, ?_⟩, ?_⟩
    · exact (chainB_iff g.edges _).mpr hcwstar.2.1
    · exact decide_eq_true hwrapedge
    · exact (nodupB_iff _).mpr hndstar
    · rw [hfindstar]
      simp
  obtain ⟨s, hs1, hs2⟩ := List.Nodup.subperm hndstar hnodesstar
  have hmem : (x :: (q ++ p)) ∈ (subsetsOf g.nodes).flatMap permsOf :=
    List.mem_flatMap.mpr ⟨s, mem_subsetsOf_of_sublist g.nodes s hs2,
      mem_permsOf_of_perm s _ hs1.symm⟩
  exact List.ne_nil_of_mem (List.mem_filter.mpr ⟨hmem, hsc⟩)

/-- Claim C1: whenever `get_execution_order` returns an order for a
well-formed graph, every edge `u→v` has `u` strictly before `v` in it (both
endpoints occur, at strictly increasing positions); and on the empty graph
it returns the empty sequence, not `None`. -/
theorem C1_topological_order :
    (∀ (g : DiGraph) (ord : List String) (u v : String), WFDigraph g →
      (u, v) ∈ g.edges → (get_execution_order g).1 = some ord →
      u ∈ ord ∧ v ∈ ord ∧ ord.indexOf u < ord.indexOf v) ∧
    (get_execution_order ⟨[], []⟩).1 = some [] := by
  constructor
  · intro g ord u v hWF he hord
    have hts := get_execution_order_fst_some g ord hord
    have hperm := topo_sort_perm g ord hts
    exact ⟨hperm.mem_iff.mpr (hWF _ he).1, hperm.mem_iff.mpr (hWF _ he).2,
      topo_sort_sound g hWF ord hts u v he⟩
  · rfl

/-- Witness for C1 on the chain `A→B`: the returned order is `[A, B]` with
`A` strictly before `B`. -/
theorem C1_witness :
    "A" ∈ ["A", "B"] ∧ "B" ∈ ["A", "B"] ∧
      (["A", "B"] : List String).indexOf "A" <
        (["A", "B"] : List String).indexOf "B" :=
  C1_topological_order.1 chainAB ["A", "B"] "A" "B" (by unfold WFDigraph; decide) (by decide) rfl

/-- Counterexample for C2 as stated: on the two-box cycle of Scenario B
(`A→B`, `B→A`) the caller of `get_execution_order` receives the bare
failure `None` — a value carrying no cycle list — while the computed cycle
list `[["A", "B"]]` goes only to the logger.  So the cycles are computed,
but they are not reported to the caller as part of the error. -/
theorem C2_counterexample :
    (get_execution_order cycAB).1 = none ∧
    (get_execution_order cycAB).2 = [SchedLog.cyclesFound [["A", "B"]]] :=
  ⟨rfl, rfl⟩

/-- Claim C2 (amended): for every well-formed graph containing a cycle,
`get_execution_order` reports failure and returns no order — the caller
receives `None`, which carries no cycle data — and the offending cycles
are computed and reported through the log: the logger output is exactly
the computed simple-cycle list, that list is nonempty, and every entry of
it is a minimal (simple, non-repeating) cycle of the graph. -/
theorem C2_cycles_logged_not_returned (g : DiGraph) (hWF : WFDigraph g)
    (hc : HasCycle g) :
    (get_execution_order g).1 = none ∧
    (get_execution_order g).2 = [SchedLog.cyclesFound (simple_cycles g)] ∧
    simple_cycles g ≠ [] ∧
    (∀ c ∈ simple_cycles g, c ≠ [] ∧ c.Nodup ∧
      List.Chain' (fun a b => (a, b) ∈ g.edges) c ∧
      ∀ hne : c ≠ [], (c.getLast hne, c.head hne) ∈ g.edges) := by
  have hnone := hasCycle_topo_sort_none g hWF hc
  have hdag : is_directed_acyclic_graph g = false := by
    unfold is_directed_acyclic_graph
    rw [hnone]
    rfl
  unfold get_execution_order
  rw [if_pos hdag]
  exact ⟨rfl, rfl, simple_cycles_ne_nil g hWF hc, fun c hcmem =>
    isSimpleCycle_spec g c (List.mem_filter.mp hcmem).2⟩

/-- Witness for C2 (amended) at the Scenario B cycle. -/
theorem C2_witness :
    (get_execution_order cycAB).1 = none ∧
    (get_execution_order cycAB).2 =
      [SchedLog.cyclesFound (simple_cycles cycAB)] ∧
    simple_cycles cycAB ≠ [] ∧
    (∀ c ∈ simple_cycles cycAB, c ≠ [] ∧ c.Nodup ∧
      List.Chain' (fun a b => (a, b) ∈ cycAB.edges) c ∧
      ∀ hne : c ≠ [], (c.getLast hne, c.head hne) ∈ cycAB.edges) :=
  C2_cycles_logged_not_returned cycAB (by unfold WFDigraph; decide)
    ⟨"A", ["B"], List.Chain.cons (by decide) List.Chain.nil, by decide⟩

/-! ## Runner lemmas -/

theorem gatherInputs_ok_spec (cache : Cache)
    (sources : List (String × String)) :
    ∀ d, gatherInputs cache sources = .ok d →
      List.Forall₂
        (fun p q => q.1 = p.1 ∧ get_cached_output cache p.2 = some q.2)
        sources d := by
  induction sources with
  | nil =>
      intro d h
      simp only [gatherInputs, Except.ok.injEq] at h
      subst h
      exact List.Forall₂.nil
  | cons p rest ih =>
      intro d h
      obtain ⟨tin, src⟩ := p
      simp only [gatherInputs] at h
      cases hco : get_cached_output cache src with
      | none =>
          rw [hco] at h
          simp at h
      | some out =>
          rw [hco] at h
          cases hg : gatherInputs cache rest with
          | error e =>
              rw [hg] at h
              simp at h
          | ok d' =>
              rw [hg] at h
              simp only [Except.ok.injEq] at h
              subst h
              exact List.Forall₂.cons ⟨rfl, hco⟩ (ih d' hg)

theorem gatherInputs_error_spec (cache : Cache)
    (sources : List (String × String)) :
    ∀ src tin, gatherInputs cache sources = .error (src, tin) →
      (tin, src) ∈ sources ∧ get_cached_output cache src = none := by
  induction sources with
  | nil =>
      intro src tin h
      simp [gatherInputs] at h
  | cons p rest ih =>
      intro src tin h
      obtain ⟨t, s⟩ := p
      simp only [gatherInputs] at h
      cases hco : get_cached_output cache s with
      | none =>
          rw [hco] at h
          simp only [Except.error.injEq, Prod.mk.injEq] at h
          obtain ⟨rfl, rfl⟩ := h
          exact ⟨List.mem_cons_self _ _, hco⟩
      | some out =>
          rw [hco] at h
          cases hg : gatherInputs cache rest with
          | error e =>
              rw [hg] at h
              simp only [Except.error.injEq] at h
              obtain ⟨hm, hn⟩ := ih src tin (by rw [hg, h])
              exact ⟨List.mem_cons_of_mem _ hm, hn⟩
          | ok d' =>
              rw [hg] at h
              simp at h

theorem runBoxes_missing_input (execFn : ExecModule) (g : WGraph)
    (box_id : String) (rest : List String) (cache : Cache) (nd : NodeData)
    (src tin : String)
    (hnd : get_node_data g box_id = some nd)
    (hcode : nd.code.getD "" ≠ "")
    (hg : gatherInputs cache nd.input_sources = .error (src, tin)) :
    runBoxes execFn g (box_id :: rest) cache =
      (false, cache,
       [⟨box_id, .running, none⟩,
        ⟨box_id, .error,
          errData ("Missing cached output from upstream box '" ++ src ++
            "' for input '" ++ tin ++ "'.")⟩]) := by
  unfold runBoxes
  rw [hnd]
  simp only [if_neg hcode, hg]

theorem runBoxes_cons_success (execFn : ExecModule) (g : WGraph)
    (box_id : String) (rest : List String) (cache : Cache) (nd : NodeData)
    (d : List (String × PyVal)) (out : PyVal)
    (hnd : get_node_data g box_id = some nd)
    (hcode : nd.code.getD "" ≠ "")
    (hg : gatherInputs cache nd.input_sources = .ok d)
    (hs : (execFn box_id (nd.code.getD "") (.vdict d)).success = true)
    (ho : (execFn box_id (nd.code.getD "") (.vdict d)).output = some out) :
    runBoxes execFn g (box_id :: rest) cache =
      ((runBoxes execFn g rest (update_cache cache box_id out (.vdict d))).1,
       (runBoxes execFn g rest (update_cache cache box_id out (.vdict d))).2.1,
       ⟨box_id, .running, none⟩ :: ⟨box_id, .success, some out⟩ ::
         (runBoxes execFn g rest
           (update_cache cache box_id out (.vdict d))).2.2) := by
  conv_lhs => rw [runBoxes]
  rw [hnd]
  simp only [if_neg hcode, hg, hs, ho, if_true, Option.getD_some]

theorem runBoxes_cons_fail (execFn : ExecModule) (g : WGraph)
    (box_id : String) (rest : List String) (cache : Cache) (nd : NodeData)
    (d : List (String × PyVal))
    (hnd : get_node_data g box_id = some nd)
    (hcode : nd.code.getD "" ≠ "")
    (hg : gatherInputs cache nd.input_sources = .ok d)
    (hs : (execFn box_id (nd.code.getD "") (.vdict d)).success = false) :
    runBoxes execFn g (box_id :: rest) cache =
      (false, cache,
       [⟨box_id, .running, none⟩,
        ⟨box_id, .error,
          errData ((execFn box_id (nd.code.getD "") (.vdict d)).error.getD
            "Unknown execution error")⟩]) := by
  unfold runBoxes
  rw [hnd]
  simp only [if_neg hcode, hg, hs, if_false, Bool.false_eq_true]

/-! ## Runner claims C3, C5, C6, C9 -/

/-- Claim C3 (Scenario C, fail-fast): in the chain `X→Y→Z` with non-empty
code strings, when `X`'s logic succeeds (returning a dict) and `Y`'s logic
fails on the inputs it is given, `run_workflow` returns overall failure and
the callback trace is exactly `running`/`success` for `X` followed by
`running`/`error` for `Y` — no callback at all is issued for `Z` or any
box after the first failure. -/
theorem C3_fail_fast (execFn : ExecModule) (cache : Cache)
    (cx cy cz tinY tinZ : String) (dX : List (String × PyVal))
    (hcx : cx ≠ "") (hcy : cy ≠ "")
    (hXs : (execFn "X" cx (.vdict [])).success = true)
    (hXo : (execFn "X" cx (.vdict [])).output = some (.vdict dX))
    (hYf : (execFn "Y" cy (.vdict [(tinY, .vdict dX)])).success = false) :
    (run_workflow execFn (chainXYZ cx cy cz tinY tinZ) cache).1 = false ∧
    (run_workflow execFn (chainXYZ cx cy cz tinY tinZ) cache).2.2 =
      [⟨"X", .running, none⟩,
       ⟨"X", .success, some (.vdict dX)⟩,
       ⟨"Y", .running, none⟩,
       ⟨"Y", .error,
         errData ((execFn "Y" cy (.vdict [(tinY, .vdict dX)])).error.getD
           "Unknown execution error")⟩] := by
  have horder :
      (get_execution_order (toDiGraph (chainXYZ cx cy cz tinY tinZ))).1 =
        some ["X", "Y", "Z"] := rfl
  have hrun : run_workflow execFn (chainXYZ cx cy cz tinY tinZ) cache =
      runBoxes execFn (chainXYZ cx cy cz tinY tinZ) ["X", "Y", "Z"] [] := by
    unfold run_workflow
    rw [horder]
    rfl
  have hX := runBoxes_cons_success execFn (chainXYZ cx cy cz tinY tinZ) "X"
    ["Y", "Z"] [] ⟨some cx, [], []⟩ [] (.vdict dX) rfl (by simpa using hcx)
    rfl (by simpa using hXs) (by simpa using hXo)
  have hcache' : update_cache [] "X" (.vdict dX) (.vdict []) =
      [("X", [("output", .vdict dX), ("inputs", .vdict [])])] := rfl
  have hgY : gatherInputs
      [("X", [("output", PyVal.vdict dX), ("inputs", PyVal.vdict [])])]
      [(tinY, "X")] = .ok [(tinY, .vdict dX)] := rfl
  have hY := runBoxes_cons_fail execFn (chainXYZ cx cy cz tinY tinZ) "Y"
    ["Z"] [("X", [("output", PyVal.vdict dX), ("inputs", PyVal.vdict [])])]
    ⟨some cy, [tinY], [(tinY, "X")]⟩ [(tinY, .vdict dX)] rfl
    (by simpa using hcy) hgY (by simpa using hYf)
  rw [hrun, hX, hcache', hY]
  exact ⟨rfl, rfl⟩

/-- Witness for C3 with the concrete executor `execXfailY` (X returns
`{"a": 1}`, Y fails with message "boom") on concrete code strings. -/
theorem C3_witness :
    (run_workflow execXfailY (chainXYZ "cx" "cy" "cz" "in_y" "in_z") []).1 =
      false ∧
    (run_workflow execXfailY (chainXYZ "cx" "cy" "cz" "in_y" "in_z") []).2.2 =
      [⟨"X", .running, none⟩,
       ⟨"X", .success, some (.vdict [("a", .vint 1)])⟩,
       ⟨"Y", .running, none⟩,
       ⟨"Y", .error,
         errData ((execXfailY "Y" "cy"
           (.vdict [("in_y", .vdict [("a", .vint 1)])])).error.getD
             "Unknown execution error")⟩] :=
  C3_fail_fast execXfailY [] "cx" "cy" "cz" "in_y" "in_z"
    [("a", .vint 1)] (by decide) (by decide) rfl rfl rfl

/-- Counterexample for C5 as stated: box `Q` is a box of `graphQ` with no
cached-inputs entry (the cache is empty), yet `run_single_box` emits
`running` and then an `error` whose data is the "Code not found for Q"
message — not a "no cached inputs" message — because `Q` was defined
without a code block and the code check precedes the cached-inputs check.
(An id naming no node at all likewise gets "Node data not found".) -/
theorem C5_counterexample :
    get_cached_inputs [] "Q" = none ∧
    run_single_box execAlwaysOk graphQ [] "Q" =
      (false, [],
       [⟨"Q", .running, none⟩,
        ⟨"Q", .error, errData "Code not found for Q"⟩]) ∧
    errData "Code not found for Q" ≠
      errData "No cached inputs available for single run." := by
  refine ⟨rfl, rfl, ?_⟩
  simp [errData]

/-- Claim C5 (amended): for every graph, cache and box id naming a node of
the graph with a non-empty code string but no cached-inputs entry,
`run_single_box` emits `running` then `error` with the "No cached inputs
available for single run." message and returns failure with the cache
unchanged.  The executor argument is universally quantified and absent
from the result, so the box's logic is never invoked. -/
theorem C5_single_run_precondition (execFn : ExecModule) (g : WGraph)
    (cache : Cache) (box_id : String) (nd : NodeData)
    (hnd : get_node_data g box_id = some nd)
    (hcode : nd.code.getD "" ≠ "")
    (hin : get_cached_inputs cache box_id = none) :
    run_single_box execFn g cache box_id =
      (false, cache,
       [⟨box_id, .running, none⟩,
        ⟨box_id, .error,
          errData "No cached inputs available for single run."⟩]) := by
  unfold run_single_box
  rw [hnd]
  simp only [if_neg hcode, hin]

/-- Witness for C5 (amended) on box `R` of `graphR` with an empty cache. -/
theorem C5_witness :
    run_single_box execAlwaysOk graphR [] "R" =
      (false, [],
       [⟨"R", .running, none⟩,
        ⟨"R", .error,
          errData "No cached inputs available for single run."⟩]) :=
  C5_single_run_precondition execAlwaysOk graphR [] "R"
    ⟨some "def execute(): return {}", [], []⟩ rfl (by decide) rfl

/-- Claim C6: during a full run the input mapping assembled for a box binds
each `targetInput` key of the node's `input_sources`, in order, to the
entire cached output dict of its source box (first conjunct); a gather
failure names a genuinely missing source (second conjunct); and when a
source box's output is absent from the cache, the per-box loop emits
`running` then the "Missing cached output" `error` for that box and halts
the whole run — no box after it is executed, whatever the rest of the
order was (third conjunct). -/
theorem C6_input_binding_and_halt :
    (∀ (cache : Cache) (sources : List (String × String))
      (d : List (String × PyVal)),
      gatherInputs cache sources = .ok d →
      List.Forall₂
        (fun p q => q.1 = p.1 ∧ get_cached_output cache p.2 = some q.2)
        sources d) ∧
    (∀ (cache : Cache) (sources : List (String × String)) (src tin : String),
      gatherInputs cache sources = .error (src, tin) →
      (tin, src) ∈ sources ∧ get_cached_output cache src = none) ∧
    (∀ (execFn : ExecModule) (g : WGraph) (box_id : String)
      (rest : List String) (cache : Cache) (nd : NodeData) (src tin : String),
      get_node_data g box_id = some nd → nd.code.getD "" ≠ "" →
      gatherInputs cache nd.input_sources = .error (src, tin) →
      runBoxes execFn g (box_id :: rest) cache =
        (false, cache,
         [⟨box_id, .running, none⟩,
          ⟨box_id, .error,
            errData ("Missing cached output from upstream box '" ++ src ++
              "' for input '" ++ tin ++ "'.")⟩])) :=
  ⟨fun cache sources d h => gatherInputs_ok_spec cache sources d h,
   fun cache sources src tin h => gatherInputs_error_spec cache sources src tin h,
   fun execFn g box_id rest cache nd src tin hnd hcode hg =>
     runBoxes_missing_input execFn g box_id rest cache nd src tin hnd hcode hg⟩

/-- Witness for C6: box `B` of `wgNeedsA` needs `A`'s output, the cache is
empty, so the loop over `["B", "A"]` halts at `B` with the missing-upstream
error and `A` is never reached. -/
theorem C6_witness :
    runBoxes execAlwaysOk wgNeedsA ["B", "A"] [] =
      (false, [],
       [⟨"B", .running, none⟩,
        ⟨"B", .error,
          errData ("Missing cached output from upstream box '" ++ "A" ++
            "' for input '" ++ "in_b" ++ "'.")⟩]) :=
  C6_input_binding_and_halt.2.2 execAlwaysOk wgNeedsA "B" ["A"] []
    ⟨some "def execute(in_b): return {}", ["in_b"], [("in_b", "A")]⟩
    "A" "in_b" rfl (by decide) rfl

/-- Claim C9: a full run starts by clearing the whole cache — its result is
independent of the incoming cache state — and when the scheduler yields no
order (cycle or graph error) the run aborts at once: overall failure, zero
per-box callbacks, and the cache still empty. -/
theorem C9_full_run_clears_and_aborts :
    (∀ (execFn : ExecModule) (g : WGraph) (cache : Cache),
      run_workflow execFn g cache = run_workflow execFn g []) ∧
    (∀ (execFn : ExecModule) (g : WGraph) (cache : Cache),
      (get_execution_order (toDiGraph g)).1 = none →
      run_workflow execFn g cache = (false, [], [])) := by
  constructor
  · intro execFn g cache
    rfl
  · intro execFn g cache h
    unfold run_workflow
    rw [h]
    rfl

/-- Witness for C9 on the cyclic workflow `wgCyc` with a non-empty incoming
cache. -/
theorem C9_witness :
    run_workflow execAlwaysOk wgCyc
        [("A", [("output", .vdict []), ("inputs", .vdict [])])] =
      (false, [], []) :=
  C9_full_run_clears_and_aborts.2 execAlwaysOk wgCyc
    [("A", [("output", .vdict []), ("inputs", .vdict [])])] rfl

